import Mathlib

/-!
Shallow embedding of `src/tuifeed.py` (rspy): a feed aggregator that
fetches feeds, normalizes entries into article records, merges fresh
results with a persisted time-windowed cache, and commits the merged
list back to the cache.

Conventions of the embedding:
- Python `datetime` values are modelled as `Int` (an absolute point in
  time); `timedelta` durations are also `Int` in the same units, and the
  comparison `now - t <= age_limit` is integer comparison. The global
  `MAX_AGE_HOURS` window enters as an explicit `limit` parameter, and
  `datetime.now()` as an explicit `now` parameter.
- Python dicts with possibly-missing keys are records of `Option` fields:
  `d.get(k)` is the field itself, `d[k]` raising `KeyError` on a missing
  key is modelled with `Except Unit` where the lookup happens inside a
  `try` block.
- `datetime.fromisoformat` on the cached `timestamp` string is modelled by
  an `Option (Option Int)` field: the outer `Option` is key presence, the
  inner `Option` is parse success. Serializing an actual `datetime` with
  `.isoformat()` always round-trips, so `write_cache` stores
  `some (some t)`.
- Fallible I/O and parsing are explicit inputs (`CacheFileState`,
  `NetResult`): the Python `try/except` blocks that catch them become
  `match` arms returning `[]`, so every embedded function is total.
-/

/-- The canonical article record built at `src/tuifeed.py:103-108`: all four
keys are always present on a freshly constructed article. -/
structure Article where
  feed : String
  title : String
  link : String
  timestamp : Int
deriving Repr, DecidableEq

/-- A raw feedparser entry as consumed by the normalizer loop at
`src/tuifeed.py:92-108`. `published_parsed = none` models the key being
absent (the `published_parsed not in entry` check); `some none` models
`time.mktime`/`datetime.fromtimestamp` raising; `some (some t)` a publish
time that parses to `t`. `title`/`link` are `entry.get` lookups. -/
structure RawEntry where
  published_parsed : Option (Option Int)
  title : Option String
  link : Option String
deriving Repr, DecidableEq

/-- An article dict as stored in the JSON cache and consumed by
`read_cache` (`src/tuifeed.py:40-44`): every key may be missing, and the
`timestamp` string may fail `datetime.fromisoformat` (inner `none`). -/
structure RawCachedArticle where
  feed : Option String
  title : Option String
  link : Option String
  timestamp : Option (Option Int)
deriving Repr, DecidableEq

/-- The persisted cache snapshot written at `src/tuifeed.py:54-57`:
`{"timestamp": now.isoformat(), "articles": [...]}`. -/
structure CacheSnapshot where
  timestamp : Int
  articles : List RawCachedArticle
deriving Repr, DecidableEq

/-- The state of the cache file as `read_cache` finds it: absent
(`os.path.exists` is false, `src/tuifeed.py:30`), present but unreadable
or malformed JSON (`open`/`json.load` raises, caught at line 47), or a
successfully parsed snapshot. -/
inductive CacheFileState where
  | absent
  | corrupt
  | good (snap : CacheSnapshot)
deriving Repr, DecidableEq

-- ------------------------------------------------------------------
-- Merge engine: the two loops of `main`, src/tuifeed.py:165-182
-- ------------------------------------------------------------------

/-- First merge loop (`src/tuifeed.py:169-172`): iterate fresh articles,
admitting each whose link is unseen and not the placeholder, recording
its link as seen. `seen` models the Python set `seen_links`. -/
def freshPass : List Article → List String → List Article → List String × List Article
  | [], seen, merged => (seen, merged)
  | a :: rest, seen, merged =>
    if a.link ∉ seen ∧ a.link ≠ "No link" then
      freshPass rest (a.link :: seen) (merged ++ [a])
    else
      freshPass rest seen merged

/-- Second merge loop (`src/tuifeed.py:175-182`): iterate cached articles,
admitting each whose link is unseen, not the placeholder, and whose feed
is in the current feed-name set. -/
def cachedPass (names : List String) : List Article → List String → List Article → List String × List Article
  | [], seen, merged => (seen, merged)
  | a :: rest, seen, merged =>
    if a.link ∉ seen ∧ a.link ≠ "No link" ∧ a.feed ∈ names then
      cachedPass names rest (a.link :: seen) (merged ++ [a])
    else
      cachedPass names rest seen merged

/-- The merge step of `main` (`src/tuifeed.py:165-182`): fresh articles
first, then cached ones, sharing one `seen_links` set. -/
def merge_articles (fresh cached : List Article) (names : List String) : List Article :=
  let p := freshPass fresh [] []
  (cachedPass names cached p.1 p.2).2

example :
    merge_articles
      [⟨"A", "T1", "x", 10⟩]
      [⟨"A", "T0", "x", 5⟩, ⟨"B", "T2", "y", 6⟩]
      ["A", "B"]
      = [⟨"A", "T1", "x", 10⟩, ⟨"B", "T2", "y", 6⟩] := by decide

example :
    merge_articles [⟨"A", "T", "No link", 0⟩] [] ["A"] = [] := by decide

-- ------------------------------------------------------------------
-- Entry normalizer + feed fetcher: fetch_feed, src/tuifeed.py:66-110
-- ------------------------------------------------------------------

/-- The article built for one kept entry, `src/tuifeed.py:103-108`:
`entry.get` with the fallback strings `No title` and `No link`. -/
def mkArticle (name : String) (e : RawEntry) (t : Int) : Article :=
  { feed := name
    title := e.title.getD "No title"
    link := e.link.getD "No link"
    timestamp := t }

/-- The normalizer loop of `fetch_feed`, `src/tuifeed.py:92-108`: skip
entries without `published_parsed`, skip entries whose publish time fails
to convert, skip entries with `now - published_time > age_limit`, and
turn every remaining entry into an article. -/
def normalizeEntries (name : String) (now limit : Int) : List RawEntry → List Article
  | [] => []
  | e :: rest =>
    match e.published_parsed with
    | none => normalizeEntries name now limit rest
    | some none => normalizeEntries name now limit rest
    | some (some t) =>
      if now - t > limit then normalizeEntries name now limit rest
      else mkArticle name e t :: normalizeEntries name now limit rest

/-- One entry of the `config.json` feed list, read with `.get` at
`src/tuifeed.py:68-69`; either key may be missing. -/
structure FeedRef where
  name : Option String
  url : Option String
deriving Repr, DecidableEq

/-- The result `feedparser.parse` returns at `src/tuifeed.py:79`: the
`bozo` malformed-document flag and the entry list. -/
structure ParsedFeed where
  bozo : Bool
  entries : List RawEntry
deriving Repr, DecidableEq

/-- Outcome of the network interaction in the `try` block at
`src/tuifeed.py:75-82`: `transportError` is `requests.get` raising
(connection failure, timeout), `badStatus` is `raise_for_status` raising
on a non-success HTTP status, `ok` is a successful response handed to
`feedparser.parse`. -/
inductive NetResult where
  | transportError
  | badStatus
  | ok (parsed : ParsedFeed)
deriving Repr, DecidableEq

/-- Embedding of `fetch_feed`, `src/tuifeed.py:66-110`. The guard `if not name or not
url: return []` treats a missing key and the empty string alike (Python
truthiness); any exception in the network block, and a `bozo` parse, give
`[]`. The network outcome is an explicit input, so the no-name/no-url
branch provably does not depend on it. -/
def fetch_feed (feed : FeedRef) (net : NetResult) (now limit : Int) : List Article :=
  match feed.name, feed.url with
  | some n, some u =>
    if n = "" ∨ u = "" then []
    else
      match net with
      | .transportError => []
      | .badStatus => []
      | .ok pf =>
        if pf.bozo then []
        else normalizeEntries n now limit pf.entries
  | _, _ => []

example :
    normalizeEntries "A" 100 24
      [⟨some (some 90), some "t1", some "l1"⟩,
       ⟨none, some "t2", some "l2"⟩,
       ⟨some none, some "t3", some "l3"⟩,
       ⟨some (some 10), some "t4", some "l4"⟩,
       ⟨some (some 105), none, none⟩]
      = [⟨"A", "t1", "l1", 90⟩, ⟨"A", "No title", "No link", 105⟩] := by decide

-- ------------------------------------------------------------------
-- Cache store: read_cache / write_cache, src/tuifeed.py:28-62
-- ------------------------------------------------------------------

/-- Evaluation of the comprehension condition at `src/tuifeed.py:42-43`
for one cached article, inside the surrounding `try`:
`current_time - datetime.fromisoformat(a[timestamp]) <= age_limit and
a[feed] in current_feed_names`. A missing `timestamp` key or a string
`fromisoformat` rejects raises (`.error`); the short-circuit `and`
only looks up the `feed` key when the age test passed. -/
def articleCheck (now limit : Int) (names : List String) (a : RawCachedArticle) : Except Unit Bool :=
  match a.timestamp with
  | none => .error ()
  | some none => .error ()
  | some (some t) =>
    if now - t ≤ limit then
      match a.feed with
      | none => .error ()
      | some f => .ok (decide (f ∈ names))
    else .ok false

/-- The list comprehension at `src/tuifeed.py:40-44`, evaluated left to
right: the first article whose condition raises aborts the whole
comprehension (the exception propagates to the handler at line 47). -/
def filterValid (now limit : Int) (names : List String) : List RawCachedArticle → Except Unit (List RawCachedArticle)
  | [] => .ok []
  | a :: rest =>
    match articleCheck now limit names a with
    | .error e => .error e
    | .ok b =>
      match filterValid now limit names rest with
      | .error e => .error e
      | .ok l => .ok (if b then a :: l else l)

/-- Embedding of `read_cache`, `src/tuifeed.py:28-49`: `[]` when the file is absent;
`[]` when opening or `json.load` fails (`corrupt`); otherwise the
filtered article list, with any exception inside the filter caught at
line 47 and turned into `[]`. -/
def read_cache (file : CacheFileState) (names : List String) (now limit : Int) : List RawCachedArticle :=
  match file with
  | .absent => []
  | .corrupt => []
  | .good snap =>
    match filterValid now limit names snap.articles with
    | .error _ => []
    | .ok l => l

/-- Serialization of a constructed article into the cache JSON: all four
keys present, and the `isoformat` timestamp string parses back to the
same instant. -/
def toRaw (a : Article) : RawCachedArticle :=
  ⟨some a.feed, some a.title, some a.link, some (some a.timestamp)⟩

/-- Embedding of `write_cache`, `src/tuifeed.py:51-62`: persist
`{"timestamp": datetime.now().isoformat(), "articles": articles}`. The
embedding models the successful write (the `except` clause only logs). -/
def write_cache (articles : List Article) (now : Int) : CacheSnapshot :=
  ⟨now, articles.map toRaw⟩

/-- True when a file is present at the cache path, as tested by
`os.path.exists` at `src/tuifeed.py:191`. -/
def existsFile : CacheFileState → Bool
  | .absent => false
  | _ => true

/-- The commit sequence actually executed by `main`,
`src/tuifeed.py:184-193`: an unconditional `write_cache`, then a second
`write_cache` when `merged_articles` is non-empty, else removal of the
cache file when it exists. -/
def commitActual (merged : List Article) (now : Int) (_fs : CacheFileState) : CacheFileState :=
  let fs1 : CacheFileState := .good (write_cache merged now)
  if merged.isEmpty then
    (if existsFile fs1 then .absent else fs1)
  else
    .good (write_cache merged now)

/-- Modelled from the spec (§4.5 commit step): after computing
`mergedArticles`, call Cache Store `write` if non-empty, else `clear`
(remove the persisted snapshot entirely). -/
def commitSpec (merged : List Article) (now : Int) (_fs : CacheFileState) : CacheFileState :=
  if merged.isEmpty then .absent
  else .good (write_cache merged now)

example :
    read_cache (.good ⟨50, [⟨some "A", some "T", some "l", some (some 40)⟩,
                            ⟨some "B", some "U", some "m", some (some 10)⟩]⟩)
      ["A", "B"] 50 24
      = [⟨some "A", some "T", some "l", some (some 40)⟩] := by decide

/-- The conditions under which evaluating the comprehension condition at
`src/tuifeed.py:42-43` raises for one cached article: the `timestamp`
key is missing, or its string fails `fromisoformat`, or the age test
passes and the `feed` key is missing. The Python `and` short-circuits, so
a stale-but-parseable timestamp prevents the `feed` lookup from raising;
the `link` key is never consulted by `read_cache` at all. -/
def CacheEntryRaises (now limit : Int) (a : RawCachedArticle) : Prop :=
  a.timestamp = none ∨ a.timestamp = some none ∨
    ∃ t : Int, a.timestamp = some (some t) ∧ now - t ≤ limit ∧ a.feed = none

-- ------------------------------------------------------------------
-- Merge engine lemmas
-- ------------------------------------------------------------------

/-- Loop invariant of the merge: the link of every admitted article has been
recorded in `seen_links` and is not the placeholder, and no link occurs
twice among the admitted articles. -/
def MergedGood (seen : List String) (merged : List Article) : Prop :=
  (∀ a ∈ merged, a.link ∈ seen ∧ a.link ≠ "No link") ∧ (merged.map Article.link).Nodup

lemma mergedGood_insert {seen : List String} {merged : List Article} {a : Article}
    (h : MergedGood seen merged) (h1 : a.link ∉ seen) (h2 : a.link ≠ "No link") :
    MergedGood (a.link :: seen) (merged ++ [a]) := by
  constructor
  · intro b hb
    rcases List.mem_append.1 hb with hb | hb
    · exact ⟨List.mem_cons_of_mem _ (h.1 b hb).1, (h.1 b hb).2⟩
    · rcases List.mem_singleton.1 hb with rfl
      exact ⟨List.mem_cons_self _ _, h2⟩
  · rw [List.map_append]
    refine h.2.append (List.nodup_singleton _) ?_
    intro x hx hx'
    rcases List.mem_map.1 hx with ⟨b, hb, rfl⟩
    rcases List.mem_singleton.1 hx' with h'
    exact h1 (h' ▸ (h.1 b hb).1)

lemma mergedGood_mono {seen : List String} {merged : List Article} {s : String}
    (h : MergedGood seen merged) : MergedGood (s :: seen) merged :=
  ⟨fun a ha => ⟨List.mem_cons_of_mem _ (h.1 a ha).1, (h.1 a ha).2⟩, h.2⟩

lemma freshPass_good : ∀ (l : List Article) (seen : List String) (merged : List Article),
    MergedGood seen merged →
    MergedGood (freshPass l seen merged).1 (freshPass l seen merged).2
  | [], _, _, h => h
  | a :: rest, seen, merged, h => by
    rw [freshPass]
    split
    · next hc => exact freshPass_good rest _ _ (mergedGood_insert h hc.1 hc.2)
    · exact freshPass_good rest _ _ h

lemma cachedPass_good (names : List String) :
    ∀ (l : List Article) (seen : List String) (merged : List Article),
    MergedGood seen merged →
    MergedGood (cachedPass names l seen merged).1 (cachedPass names l seen merged).2
  | [], _, _, h => h
  | a :: rest, seen, merged, h => by
    rw [cachedPass]
    split
    · next hc => exact cachedPass_good names rest _ _ (mergedGood_insert h hc.1 hc.2.1)
    · exact cachedPass_good names rest _ _ h

lemma merge_articles_good (fresh cached : List Article) (names : List String) :
    MergedGood (cachedPass names cached (freshPass fresh [] []).1 (freshPass fresh [] []).2).1
      (merge_articles fresh cached names) := by
  unfold merge_articles
  exact cachedPass_good names cached _ _
    (freshPass_good fresh [] [] ⟨fun a ha => absurd ha (List.not_mem_nil a), List.nodup_nil⟩)

/-- Every article emitted by the fresh loop was already accumulated or
comes from the fresh input list. -/
lemma freshPass_mem : ∀ (l : List Article) (seen : List String) (merged : List Article)
    (a : Article), a ∈ (freshPass l seen merged).2 → a ∈ merged ∨ a ∈ l
  | [], _, _, _, h => Or.inl h
  | x :: rest, seen, merged, a, h => by
    rw [freshPass] at h
    split at h
    · rcases freshPass_mem rest _ _ a h with h' | h'
      · rcases List.mem_append.1 h' with h'' | h''
        · exact Or.inl h''
        · rcases List.mem_singleton.1 h'' with rfl
          exact Or.inr (List.mem_cons_self _ _)
      · exact Or.inr (List.mem_cons_of_mem x h')
    · rcases freshPass_mem rest _ _ a h with h' | h'
      · exact Or.inl h'
      · exact Or.inr (List.mem_cons_of_mem x h')

/-- Every article emitted by the cached loop was already accumulated, or
comes from the cached input list with a link unseen at loop entry. -/
lemma cachedPass_mem (names : List String) :
    ∀ (l : List Article) (seen : List String) (merged : List Article)
    (a : Article), a ∈ (cachedPass names l seen merged).2 →
      a ∈ merged ∨ (a ∈ l ∧ a.link ∉ seen)
  | [], _, _, _, h => Or.inl h
  | x :: rest, seen, merged, a, h => by
    rw [cachedPass] at h
    split at h
    · next hc =>
      rcases cachedPass_mem names rest _ _ a h with h' | h'
      · rcases List.mem_append.1 h' with h'' | h''
        · exact Or.inl h''
        · rcases List.mem_singleton.1 h'' with rfl
          exact Or.inr ⟨List.mem_cons_self _ _, hc.1⟩
      · refine Or.inr ⟨List.mem_cons_of_mem x h'.1, fun hs => h'.2 (List.mem_cons_of_mem _ hs)⟩
    · rcases cachedPass_mem names rest _ _ a h with h' | h'
      · exact Or.inl h'
      · exact Or.inr ⟨List.mem_cons_of_mem x h'.1, h'.2⟩

/-- After the fresh loop, every non-placeholder link of the fresh input
is in `seen_links`. -/
lemma freshPass_seen_covers : ∀ (l : List Article) (seen : List String) (merged : List Article)
    (x : Article), x ∈ l → x.link ≠ "No link" → x.link ∈ (freshPass l seen merged).1
  | [], _, _, _, hx, _ => absurd hx (List.not_mem_nil _)
  | a :: rest, seen, merged, x, hx, hpl => by
    have seen_sub : ∀ (l' : List Article) (s : List String) (m : List Article),
        s ⊆ (freshPass l' s m).1 := by
      intro l'
      induction l' with
      | nil => intro s m; exact fun _ h => h
      | cons b rest' ih =>
        intro s m
        rw [freshPass]
        split
        · exact fun y hy => ih _ _ (List.mem_cons_of_mem _ hy)
        · exact ih _ _
    rw [freshPass]
    rcases List.mem_cons.1 hx with rfl | hx'
    · split
      · exact seen_sub rest _ _ (List.mem_cons_self _ _)
      · next hc =>
        rw [not_and_or] at hc
        rcases hc with hc | hc
        · rw [not_not] at hc
          exact seen_sub rest _ _ hc
        · exact absurd hpl hc
    · split
      · exact freshPass_seen_covers rest _ _ x hx' hpl
      · exact freshPass_seen_covers rest _ _ x hx' hpl

-- ------------------------------------------------------------------
-- C1 - C3: merge claims
-- ------------------------------------------------------------------

/-- C1: for every pair of input lists and every link value other than the
placeholder, the link appears at most once among the articles of the
merged output of the merge step in `main`. -/
theorem merge_link_count_le_one (fresh cached : List Article) (names : List String)
    (l : String) (_hl : l ≠ "No link") :
    ((merge_articles fresh cached names).map Article.link).count l ≤ 1 :=
  List.nodup_iff_count_le_one.1 (merge_articles_good fresh cached names).2 l

theorem merge_link_count_le_one_witness :
    ("x" : String) ≠ "No link" ∧
      ((merge_articles [⟨"A", "T1", "x", 10⟩] [⟨"A", "T0", "x", 5⟩] ["A"]).map
        Article.link).count "x" ≤ 1 :=
  ⟨by decide, merge_link_count_le_one [⟨"A", "T1", "x", 10⟩] [⟨"A", "T0", "x", 5⟩] ["A"]
    "x" (by decide)⟩

/-- C2: if a non-placeholder link occurs both among the fresh and the
cached input articles, then every article of the merged output carrying
that link is one of the fresh articles (all four field values are a fresh
article, never from a cached-only record): fresh wins the tie-break. -/
theorem merge_fresh_wins (fresh cached : List Article) (names : List String) (l : String)
    (hpl : l ≠ "No link") (hf : l ∈ fresh.map Article.link)
    (_hc : l ∈ cached.map Article.link) (a : Article)
    (ha : a ∈ merge_articles fresh cached names) (hal : a.link = l) :
    a ∈ fresh := by
  unfold merge_articles at ha
  rcases cachedPass_mem names cached _ _ a ha with h1 | h1
  · rcases freshPass_mem fresh _ _ a h1 with h2 | h2
    · exact absurd h2 (List.not_mem_nil a)
    · exact h2
  · exfalso
    rcases List.mem_map.1 hf with ⟨x, hx, hxl⟩
    have : x.link ∈ (freshPass fresh [] []).1 :=
      freshPass_seen_covers fresh [] [] x hx (hxl ▸ hpl)
    exact h1.2 (hal ▸ hxl ▸ this)

theorem merge_fresh_wins_witness :
    (⟨"A", "T1", "x", 10⟩ : Article) ∈ [(⟨"A", "T1", "x", 10⟩ : Article)] :=
  merge_fresh_wins [⟨"A", "T1", "x", 10⟩] [⟨"A", "T0", "x", 5⟩] ["A"] "x"
    (by decide) (by decide) (by decide) ⟨"A", "T1", "x", 10⟩ (by decide) rfl

/-- C3 counterexample: an article whose link is the `No link` placeholder
is not retained by the merge — neither from the fresh list nor from the
cached list (with its feed in the current feed-name set) — contradicting
the claim that placeholder articles are always retained. -/
theorem merge_placeholder_cex :
    merge_articles [⟨"A", "T", "No link", 0⟩] [] ["A"] = [] ∧
      merge_articles [] [⟨"A", "U", "No link", 0⟩] ["A"] = [] := by decide

/-- C3 amended: every article whose link equals the `No link` placeholder
is excluded from the merged output (the admission condition of both merge
loops rejects the placeholder link); consequently placeholder articles
are never deduplicated against each other, but they are dropped, not
retained. -/
theorem merge_placeholder_excluded (fresh cached : List Article) (names : List String)
    (a : Article) (ha : a ∈ merge_articles fresh cached names) :
    a.link ≠ "No link" :=
  ((merge_articles_good fresh cached names).1 a ha).2

theorem merge_placeholder_excluded_witness :
    (Article.mk "A" "T" "x" 0).link ≠ "No link" :=
  merge_placeholder_excluded [⟨"A", "T", "x", 0⟩] [] [] ⟨"A", "T", "x", 0⟩ (by decide)

-- ------------------------------------------------------------------
-- C4: the normalizer loop of fetch_feed
-- ------------------------------------------------------------------

/-- Soundness of the normalizer loop: the publish time of every produced
article satisfies the age test, and the article was built (by `mkArticle`)
from an entry of the input whose publish time parsed to that value — so
entries with a missing or unparsable publish time never produce an
article. -/
lemma normalize_sound (name : String) (now limit : Int) (entries : List RawEntry) :
    ∀ a ∈ normalizeEntries name now limit entries,
      now - a.timestamp ≤ limit ∧
      ∃ e ∈ entries, e.published_parsed = some (some a.timestamp) ∧
        a = mkArticle name e a.timestamp := by
  induction entries with
  | nil => intro a h; exact absurd h (List.not_mem_nil a)
  | cons e rest ih =>
    intro a h
    rcases hp : e.published_parsed with _ | (_ | t)
    · simp only [normalizeEntries, hp] at h
      rcases ih a h with ⟨h1, e', he', hpe', hae'⟩
      exact ⟨h1, e', List.mem_cons_of_mem _ he', hpe', hae'⟩
    · simp only [normalizeEntries, hp] at h
      rcases ih a h with ⟨h1, e', he', hpe', hae'⟩
      exact ⟨h1, e', List.mem_cons_of_mem _ he', hpe', hae'⟩
    · simp only [normalizeEntries, hp] at h
      by_cases hlt : now - t > limit
      · rw [if_pos hlt] at h
        rcases ih a h with ⟨h1, e', he', hpe', hae'⟩
        exact ⟨h1, e', List.mem_cons_of_mem _ he', hpe', hae'⟩
      · rw [if_neg hlt] at h
        rcases List.mem_cons.1 h with rfl | h'
        · exact ⟨not_lt.1 hlt, e, List.mem_cons_self _ _, hp, rfl⟩
        · rcases ih a h' with ⟨h1, e', he', hpe', hae'⟩
          exact ⟨h1, e', List.mem_cons_of_mem _ he', hpe', hae'⟩

/-- Completeness of the normalizer loop: every entry whose publish time
parses and satisfies the age test yields its article in the output. -/
lemma normalize_complete (name : String) (now limit : Int) (entries : List RawEntry) :
    ∀ e ∈ entries, ∀ t : Int, e.published_parsed = some (some t) → now - t ≤ limit →
      mkArticle name e t ∈ normalizeEntries name now limit entries := by
  induction entries with
  | nil => intro e he; exact absurd he (List.not_mem_nil e)
  | cons x rest ih =>
    intro e he t hpt hle
    rcases List.mem_cons.1 he with rfl | he'
    · simp only [normalizeEntries, hpt]
      rw [if_neg (not_lt.2 hle)]
      exact List.mem_cons_self _ _
    · have hmem := ih e he' t hpt hle
      rcases hx : x.published_parsed with _ | (_ | s)
      · simp only [normalizeEntries, hx]; exact hmem
      · simp only [normalizeEntries, hx]; exact hmem
      · simp only [normalizeEntries, hx]
        by_cases hls : now - s > limit
        · rw [if_pos hls]; exact hmem
        · rw [if_neg hls]; exact List.mem_cons_of_mem _ hmem

/-- C4 counterexample: with `now = 0` and a 24-unit window, an entry whose
publish time parses to `5` — strictly later than `now` — is kept by the
normalizer loop (`0 - 5 > 24` is false), contradicting the claim that no
kept entry has a publish time later than `now`. -/
theorem normalize_future_kept_cex :
    normalizeEntries "A" 0 24 [⟨some (some 5), some "T", some "l"⟩]
      = [⟨"A", "T", "l", 5⟩] ∧ (0 : Int) < 5 := by decide

/-- C4 amended: the normalizer loop keeps exactly the entries that carry
a parseable publish time `t` with `now - t ≤ window` — the window has no
upper cutoff at `now`, so future-dated entries are kept — and every entry
with a missing or unparsable publish time is silently skipped rather than
producing an article. -/
theorem normalize_window_lower_bound_only (name : String) (now limit : Int)
    (entries : List RawEntry) :
    (∀ a ∈ normalizeEntries name now limit entries,
        now - a.timestamp ≤ limit ∧
        ∃ e ∈ entries, e.published_parsed = some (some a.timestamp) ∧
          a = mkArticle name e a.timestamp) ∧
    (∀ e ∈ entries, ∀ t : Int, e.published_parsed = some (some t) → now - t ≤ limit →
        mkArticle name e t ∈ normalizeEntries name now limit entries) :=
  ⟨normalize_sound name now limit entries, normalize_complete name now limit entries⟩

-- ------------------------------------------------------------------
-- C5: the commit sequence of main vs the documented single commit
-- ------------------------------------------------------------------

/-- C5: the commit sequence actually executed in `main` (an unconditional
`write_cache`, a second `write_cache` when `merged_articles` is
non-empty, else removal of the existing file) has the same net effect on
the persisted snapshot as the single documented commit step: the file
holds exactly the merged articles when they are non-empty, and is absent
when they are empty. -/
theorem commit_equiv_spec (merged : List Article) (now : Int) (fs : CacheFileState) :
    commitActual merged now fs = commitSpec merged now fs ∧
    commitActual merged now fs =
      (if merged.isEmpty then CacheFileState.absent
       else .good ⟨now, merged.map toRaw⟩) := by
  unfold commitActual commitSpec existsFile write_cache
  cases merged <;> simp

-- ------------------------------------------------------------------
-- C6, C7, C9, C10: cache store claims
-- ------------------------------------------------------------------

/-- Every article the comprehension keeps had its whole condition
evaluate to `true` without raising. -/
lemma filterValid_ok_mem (now limit : Int) (names : List String) :
    ∀ (xs res : List RawCachedArticle), filterValid now limit names xs = .ok res →
      ∀ a ∈ res, articleCheck now limit names a = .ok true := by
  intro xs
  induction xs with
  | nil =>
    intro res h a ha
    simp only [filterValid] at h
    cases h
    exact absurd ha (List.not_mem_nil a)
  | cons x rest ih =>
    intro res h a ha
    simp only [filterValid] at h
    rcases hc : articleCheck now limit names x with e | b
    · rw [hc] at h; cases h
    · rw [hc] at h
      rcases hr : filterValid now limit names rest with e | l
      · rw [hr] at h; cases h
      · rw [hr] at h
        cases b
        · simp only [Bool.false_eq_true, if_false] at h
          cases h
          exact ih _ hr a ha
        · simp only [if_true] at h
          cases h
          rcases List.mem_cons.1 ha with rfl | ha'
          · exact hc
          · exact ih _ hr a ha'

/-- An article whose condition raises anywhere in the list makes the
whole comprehension raise. -/
lemma filterValid_error_of_mem (now limit : Int) (names : List String) :
    ∀ (xs : List RawCachedArticle) (a : RawCachedArticle), a ∈ xs →
      articleCheck now limit names a = .error () →
      filterValid now limit names xs = .error () := by
  intro xs
  induction xs with
  | nil => intro a ha; exact absurd ha (List.not_mem_nil a)
  | cons x rest ih =>
    intro a ha herr
    rcases List.mem_cons.1 ha with rfl | ha'
    · simp only [filterValid, herr]
    · simp only [filterValid]
      rcases hc : articleCheck now limit names x with e | b
      · simp only [hc]
      · simp only [hc]
        rw [ih a ha' herr]

/-- C6: every article returned by `read_cache` passed the freshness test
against the supplied `now` and window, and its feed name is a member of
the supplied current-feed-name set. -/
theorem read_cache_filters (file : CacheFileState) (names : List String) (now limit : Int)
    (a : RawCachedArticle) (ha : a ∈ read_cache file names now limit) :
    (∃ t : Int, a.timestamp = some (some t) ∧ now - t ≤ limit) ∧
    (∃ f : String, a.feed = some f ∧ f ∈ names) := by
  cases file with
  | absent => exact absurd ha (List.not_mem_nil a)
  | corrupt => exact absurd ha (List.not_mem_nil a)
  | good snap =>
    simp only [read_cache] at ha
    rcases hr : filterValid now limit names snap.articles with e | l
    · rw [hr] at ha; exact absurd ha (List.not_mem_nil a)
    · rw [hr] at ha
      have hchk := filterValid_ok_mem now limit names snap.articles l hr a ha
      rcases ht : a.timestamp with _ | (_ | t)
      · simp only [articleCheck, ht] at hchk
        cases hchk
      · simp only [articleCheck, ht] at hchk
        cases hchk
      · simp only [articleCheck, ht] at hchk
        by_cases hle : now - t ≤ limit
        · rw [if_pos hle] at hchk
          rcases hf : a.feed with _ | f
          · simp only [hf] at hchk
            cases hchk
          · simp only [hf] at hchk
            injection hchk with hb
            exact ⟨⟨t, rfl, hle⟩, ⟨f, rfl, of_decide_eq_true hb⟩⟩
        · rw [if_neg hle] at hchk
          cases hchk

theorem read_cache_filters_witness :
    (∃ t : Int, (RawCachedArticle.mk (some "A") (some "T") (some "l")
        (some (some 40))).timestamp = some (some t) ∧ (50 : Int) - t ≤ 24) ∧
    (∃ f : String, (RawCachedArticle.mk (some "A") (some "T") (some "l")
        (some (some 40))).feed = some f ∧ f ∈ ["A"]) :=
  read_cache_filters
    (.good ⟨50, [⟨some "A", some "T", some "l", some (some 40)⟩]⟩) ["A"] 50 24
    ⟨some "A", some "T", some "l", some (some 40)⟩ (by decide)

/-- C7: when the cache file is absent, or present but unreadable or
malformed JSON, `read_cache` returns the empty list (and, the embedding
being a total function, no error reaches the caller). -/
theorem read_cache_failure_empty (names : List String) (now limit : Int) :
    read_cache .absent names now limit = [] ∧
      read_cache .corrupt names now limit = [] :=
  ⟨rfl, rfl⟩

theorem normalize_window_lower_bound_only_witness :
    (100 : Int) - (Article.mk "A" "T" "l" 90).timestamp ≤ 24 ∧
      mkArticle "A" ⟨some (some 90), some "T", some "l"⟩ 90 ∈
        normalizeEntries "A" 100 24 [⟨some (some 90), some "T", some "l"⟩] :=
  ⟨((normalize_window_lower_bound_only "A" 100 24
        [⟨some (some 90), some "T", some "l"⟩]).1 ⟨"A", "T", "l", 90⟩ (by decide)).1,
    (normalize_window_lower_bound_only "A" 100 24
        [⟨some (some 90), some "T", some "l"⟩]).2
      ⟨some (some 90), some "T", some "l"⟩ (by decide) 90 rfl (by decide)⟩

-- ------------------------------------------------------------------
-- C8: fetch_feed failure handling
-- ------------------------------------------------------------------

/-- C8: `fetch_feed` returns the empty list on every failure — transport
error, non-success HTTP status, or a parser-reported malformed document —
and a feed entry missing its name or url yields the empty list whatever
the network would have answered (it is skipped before any network call).
The embedding is a total function, so no exception escapes. -/
theorem fetch_feed_failures_empty (feed : FeedRef) (now limit : Int) :
    ((feed.name = none ∨ feed.url = none) →
        ∀ net : NetResult, fetch_feed feed net now limit = []) ∧
    fetch_feed feed .transportError now limit = [] ∧
    fetch_feed feed .badStatus now limit = [] ∧
    (∀ pf : ParsedFeed, pf.bozo = true → fetch_feed feed (.ok pf) now limit = []) := by
  obtain ⟨n, u⟩ := feed
  refine ⟨?_, ?_, ?_, ?_⟩
  · rintro (h | h) net
    · rcases n with _ | n
      · rcases u with _ | u <;> rfl
      · exact Option.noConfusion h
    · rcases u with _ | u
      · rcases n with _ | n <;> rfl
      · exact Option.noConfusion h
  · rcases n with _ | n
    · rcases u with _ | u <;> rfl
    · rcases u with _ | u
      · rfl
      · simp only [fetch_feed]
        split <;> rfl
  · rcases n with _ | n
    · rcases u with _ | u <;> rfl
    · rcases u with _ | u
      · rfl
      · simp only [fetch_feed]
        split <;> rfl
  · intro pf hbozo
    rcases n with _ | n
    · rcases u with _ | u <;> rfl
    · rcases u with _ | u
      · rfl
      · simp only [fetch_feed]
        split
        · rfl
        · simp [hbozo]

theorem fetch_feed_failures_empty_witness :
    fetch_feed ⟨none, some "http://u"⟩ .transportError 0 24 = [] ∧
      fetch_feed ⟨some "A", some "http://u"⟩ (.ok ⟨true, []⟩) 0 24 = [] :=
  ⟨(fetch_feed_failures_empty ⟨none, some "http://u"⟩ 0 24).1 (Or.inl rfl) .transportError,
   (fetch_feed_failures_empty ⟨some "A", some "http://u"⟩ 0 24).2.2.2 ⟨true, []⟩ rfl⟩

-- ------------------------------------------------------------------
-- C9: write/read round trip
-- ------------------------------------------------------------------

/-- On serialized articles (all keys present, timestamps that parse
back), the comprehension never raises and keeps exactly the fresh
in-feed ones. -/
lemma filterValid_map_toRaw (now limit : Int) (names : List String) :
    ∀ arts : List Article,
      filterValid now limit names (arts.map toRaw) =
        .ok ((arts.filter (fun a => decide (now - a.timestamp ≤ limit) &&
          decide (a.feed ∈ names))).map toRaw) := by
  intro arts
  induction arts with
  | nil => rfl
  | cons a rest ih =>
    by_cases h1 : now ≤ limit + a.timestamp
    · by_cases h2 : a.feed ∈ names
      · simp [filterValid, articleCheck, toRaw, List.filter_cons, sub_le_iff_le_add, h1, h2, ih]
      · simp [filterValid, articleCheck, toRaw, List.filter_cons, sub_le_iff_le_add, h1, h2, ih]
    · simp [filterValid, articleCheck, toRaw, List.filter_cons, sub_le_iff_le_add, h1, ih]

/-- C9: `write_cache` followed by `read_cache` returns exactly the
written articles that are within the freshness window and whose feed is
in the current feed-name set, with feed, title, link and timestamp
preserved field-for-field (`toRaw` stores each field unchanged). -/
theorem write_read_roundtrip (arts : List Article) (wt : Int) (names : List String)
    (now limit : Int) :
    read_cache (.good (write_cache arts wt)) names now limit =
      (arts.filter (fun a => decide (now - a.timestamp ≤ limit) &&
        decide (a.feed ∈ names))).map toRaw := by
  simp only [read_cache, write_cache]
  rw [filterValid_map_toRaw]

-- ------------------------------------------------------------------
-- C10: per-snapshot (not per-article) cache-read recovery
-- ------------------------------------------------------------------

/-- C10 counterexample: a snapshot whose only article lacks the `link`
key is returned intact by `read_cache` — the filter never consults
`link` — so a missing `link` key does not make `read_cache` return the
empty list as claimed. -/
theorem read_cache_missing_link_cex :
    (RawCachedArticle.mk (some "A") (some "T") none (some (some 40))).link = none ∧
      read_cache (.good ⟨50, [⟨some "A", some "T", none, some (some 40)⟩]⟩) ["A"] 50 24
        = [⟨some "A", some "T", none, some (some 40)⟩] ∧
      [RawCachedArticle.mk (some "A") (some "T") none (some (some 40))] ≠
        ([] : List RawCachedArticle) := by decide

lemma articleCheck_error_of_raises (now limit : Int) (names : List String)
    (a : RawCachedArticle) (h : CacheEntryRaises now limit a) :
    articleCheck now limit names a = .error () := by
  rcases h with h | h | ⟨t, ht, hle, hf⟩
  · simp [articleCheck, h]
  · simp [articleCheck, h]
  · simp [articleCheck, ht, hle, hf]

/-- C10 amended: if any article record of a parsed snapshot raises in the
filter — `timestamp` key missing or not ISO-parseable, or `feed` key
missing while its timestamp passes the freshness test (the `link` key is
never consulted) — then `read_cache` returns the empty list, discarding
every other article of the snapshot even when individually valid:
cache-read recovery is all-or-nothing per snapshot. -/
theorem read_cache_all_or_nothing (snap : CacheSnapshot) (names : List String)
    (now limit : Int) (a : RawCachedArticle) (ha : a ∈ snap.articles)
    (hbad : CacheEntryRaises now limit a) :
    read_cache (.good snap) names now limit = [] := by
  simp only [read_cache]
  rw [filterValid_error_of_mem now limit names snap.articles a ha
    (articleCheck_error_of_raises now limit names a hbad)]

theorem read_cache_all_or_nothing_witness :
    read_cache
      (.good ⟨50, [⟨some "A", some "T", some "l", some (some 40)⟩,
                   ⟨some "B", some "U", some "m", none⟩]⟩)
      ["A", "B"] 50 24 = [] :=
  read_cache_all_or_nothing
    ⟨50, [⟨some "A", some "T", some "l", some (some 40)⟩,
          ⟨some "B", some "U", some "m", none⟩]⟩
    ["A", "B"] 50 24 ⟨some "B", some "U", some "m", none⟩
    (by decide) (Or.inl rfl)
